import Mathlib

/-!
Verification of the lazy generator pipeline in `src/generators/generators.py`
of the Simply-Python repository.

Python generators are embedded as explicit pull-based state machines: a
producer over state `σ` is a function `σ → Option (Int × σ)` where
`some (v, s)` models a `yield` of `v` (resuming state `s`) and `none`
models `StopIteration`.  Filtering stages may pull several upstream
elements per downstream element, so their single-pull function carries a
fuel argument; theorems show the fuel plays no role when it is large
enough.  Finite drained runs are lists; `num ** 2` is `num ^ 2` on `Int`,
Python `%` on integers agrees with `Int.emod` for positive modulus.
-/

/-- The predicate `num % 2 == 0` used by `filter_even`. -/
def isEven (num : Int) : Bool := num % 2 == 0

/-- Drained semantics of `read_numbers(data)`: the loop
`for number in data: yield number` re-emits the list element by element. -/
def read_numbers : List Int → List Int
  | [] => []
  | number :: rest => number :: read_numbers rest

/-- Drained semantics of `filter_even(numbers)`:
`for num in numbers: if num % 2 == 0: yield num`. -/
def filter_even : List Int → List Int
  | [] => []
  | num :: rest => if isEven num then num :: filter_even rest else filter_even rest

/-- Drained semantics of `square(numbers)`:
`for num in numbers: yield num ** 2`. -/
def square : List Int → List Int
  | [] => []
  | num :: rest => num ^ 2 :: square rest

/-- One `next()` call on `count_up_to(max_value)` whose saved local is
`count`: `while count <= max_value: yield count; count += 1`.  `none`
models the `StopIteration` raised when the loop exits. -/
def count_up_to_next (max_value count : Int) : Option (Int × Int) :=
  if count ≤ max_value then some (count, count + 1) else none

/-- State of the custom iterator class `Range` after `__init__`:
fields `start`, `stop`, `step` and the cursor `current`. -/
structure RangeIter where
  start : Int
  stop : Int
  step : Int
  current : Int
deriving DecidableEq

/-- Constructor `Range.__init__(start, stop=None, step=1)`: with `stop` absent the
first argument is the stop value and counting starts at 0. -/
def rangeInit (start : Int) (stop : Option Int) (step : Int) : RangeIter :=
  match stop with
  | none => { start := 0, stop := start, step := step, current := 0 }
  | some s => { start := start, stop := s, step := step, current := start }

/-- Method `Range.__next__` raises `StopIteration` (modelled as `none`) when the
cursor has passed `stop` in the direction of `step`, otherwise returns the
cursor and advances it by `step`. -/
def rangeNext (r : RangeIter) : Option (Int × RangeIter) :=
  if (r.step > 0 ∧ r.current ≥ r.stop) ∨ (r.step < 0 ∧ r.current ≤ r.stop) then none
  else some (r.current, { r with current := r.current + r.step })

/-- One pull on `fibonacci_generator()` whose saved locals are `(a, b)`:
`while True: yield a; a, b = b, a + b`.  The loop never exits, so the
result is always `some`. -/
def fibNext (s : Int × Int) : Option (Int × (Int × Int)) :=
  some (s.1, (s.2, s.1 + s.2))

/-- Initial state of `fibonacci_generator()`: `a, b = 0, 1`. -/
def fibInit : Int × Int := (0, 1)

/-- One pull on a map stage (such as `square`) attached to an upstream
producer `next`: pull one upstream element and transform it; upstream
`StopIteration` propagates unchanged. -/
def mapNext {σ : Type} (f : Int → Int) (next : σ → Option (Int × σ)) (s : σ) :
    Option (Int × σ) :=
  match next s with
  | none => none
  | some (v, s') => some (f v, s')

/-- Result of one pull on a filter stage: a value, a genuine upstream
`StopIteration`, or fuel exhaustion (the pull would keep running). -/
inductive FilterPull (σ : Type) where
  | value (v : Int) (s : σ)
  | exhausted
  | outOfFuel
deriving DecidableEq

/-- One pull on a filter stage (such as `filter_even`) attached to an
upstream producer `next`: keep pulling upstream elements until one
satisfies `p`; upstream exhaustion is reported as `.exhausted`, and
`.outOfFuel` only signals that the given retry budget ran out. -/
def filterPull {σ : Type} (p : Int → Bool) (next : σ → Option (Int × σ)) :
    Nat → σ → FilterPull σ
  | 0, _ => .outOfFuel
  | fuel + 1, s =>
    match next s with
    | none => .exhausted
    | some (v, s') => if p v then .value v s' else filterPull p next fuel s'

/-- Draining the composed pipeline `filter_even(fibonacci_generator())`:
collect `n` downstream elements, allowing three upstream pulls per
downstream element. -/
def drainFilteredFib : Nat → Int × Int → List Int
  | 0, _ => []
  | n + 1, s =>
    match filterPull isEven fibNext 3 s with
    | .value v s' => v :: drainFilteredFib n s'
    | _ => []

/-- The first `n` values pulled from a `fibonacci_generator()` instance in
state `s`. -/
def fibTake : Nat → Int × Int → List Int
  | 0, _ => []
  | n + 1, s =>
    match fibNext s with
    | none => []
    | some (v, s') => v :: fibTake n s'

/-- Two independent `fibonacci_generator()` instances driven by a schedule:
`true` pulls and discards from instance A, `false` pulls from instance B
and records the value.  Models interleaved consumption of separate
producer instances. -/
def twoInstanceRun : List Bool → Int × Int → Int × Int → List Int
  | [], _, _ => []
  | true :: rest, sa, sb =>
    match fibNext sa with
    | none => twoInstanceRun rest sa sb
    | some (_, sa') => twoInstanceRun rest sa' sb
  | false :: rest, sa, sb =>
    match fibNext sb with
    | none => twoInstanceRun rest sa sb
    | some (v, sb') => v :: twoInstanceRun rest sa sb'

/-- A potentially nested list: Python list elements that are either
integers or nested lists (`isinstance(item, list)` distinguishes them). -/
inductive Nested where
  | atom (n : Int)
  | list (items : List Nested)

/-- Drained semantics of `flatten(nested_list)`: for each item, recurse
into lists (`yield from flatten(item)`) and emit atoms in order. -/
def flatten : List Nested → List Int
  | [] => []
  | .atom n :: rest => n :: flatten rest
  | .list items :: rest => flatten items ++ flatten rest

/-- State of the `accumulator()` generator: whether the generator has been
started (run to its first `yield`) and the running `total`. -/
structure AccState where
  started : Bool
  total : ℚ
deriving DecidableEq

/-- Result of driving the `accumulator()` generator one step: the yielded
running total plus the new state, or the `TypeError` CPython raises for
`send` of a non-`None` value into a not-yet-started generator. -/
inductive AccResult where
  | ok (yielded : ℚ) (state : AccState)
  | error
deriving DecidableEq

/-- A fresh `accumulator()` generator object, not yet started. -/
def accumulator_start : AccState := { started := false, total := 0 }

/-- One `send` into `accumulator()` (`next(acc)` is `send(None)`).
Body: `total = 0.0; while True: value = yield total;
if value is not None: total += value`.  Starting the generator runs to the
first `yield total` with `total = 0`; a later `send(x)` resumes with
`value = x`, adds it, and yields the new total; `send` of a value before
the first `next` is the CPython `TypeError`, modelled as `.error`. -/
def accSend (s : AccState) (v : Option ℚ) : AccResult :=
  match s.started, v with
  | false, none => .ok 0 { started := true, total := 0 }
  | false, some _ => .error
  | true, none => .ok s.total s
  | true, some x => .ok (s.total + x) { started := true, total := s.total + x }

/-- Perform `accept(v)` (that is, `acc.send(v)`) for each listed value in
order; `none` if any send is rejected. -/
def accAcceptAll : AccState → List ℚ → Option AccState
  | s, [] => some s
  | s, v :: vs =>
    match accSend s (some v) with
    | .ok _ s' => accAcceptAll s' vs
    | .error => none

/-- A pure pipeline stage: a map (like `square`) or a filter (like
`filter_even`). -/
inductive Stage where
  | map (f : Int → Int)
  | filter (p : Int → Bool)

/-- One pull on a composed pipeline `stages_k(... stages_1(read_numbers(src)))`,
written outermost stage first.  The only state is the list of source
elements not yet pulled, since map/filter stages are stateless.  A filter
stage keeps pulling upstream until its predicate matches; `fuel` bounds
those retries (each retry provably consumes a source element, so
`src.length` retries always suffice). -/
def pullStages : Nat → List Stage → List Int → Option (Int × List Int)
  | _, [], [] => none
  | _, [], x :: xs => some (x, xs)
  | fuel, .map f :: rest, src =>
    match pullStages fuel rest src with
    | none => none
    | some (v, s') => some (f v, s')
  | 0, .filter _ :: _, _ => none
  | fuel + 1, .filter p :: rest, src =>
    match pullStages (fuel + 1) rest src with
    | none => none
    | some (v, s') =>
      if p v then some (v, s') else pullStages fuel (.filter p :: rest) s'
termination_by fuel stages _ => (fuel, stages.length)

/-- Eager semantics of the same composition: materialise the source and
apply `List.map` / `List.filter` stage by stage, innermost first. -/
def eager : List Stage → List Int → List Int
  | [], src => src
  | .map f :: rest, src => (eager rest src).map f
  | .filter p :: rest, src => (eager rest src).filter p

/-- Drain the lazily composed pipeline: repeatedly pull (giving each pull
a retry budget of `src.length + 1` for the current remaining source) until
exhaustion or until `fuel` downstream elements were taken. -/
def drainStages (stages : List Stage) : Nat → List Int → List Int
  | 0, _ => []
  | fuel + 1, src =>
    match pullStages (src.length + 1) stages src with
    | none => []
    | some (v, s') => v :: drainStages stages fuel s'

/-- A Python string, modelled as its list of characters. -/
abbrev Str := List Char

/-- Python `line.split(',')`: cut at every comma; the empty string splits to one
empty field, matching Python. -/
def splitComma : Str → List Str
  | [] => [[]]
  | c :: rest =>
    if c = ',' then [] :: splitComma rest
    else
      match splitComma rest with
      | [] => [[c]]
      | f :: fs => (c :: f) :: fs

/-- Insert one key/value pair Python-`dict` style: an existing key keeps
its position but takes the new value, a new key is appended. -/
def dictInsert : List (Str × Str) → Str → Str → List (Str × Str)
  | [], k, v => [(k, v)]
  | (k', v') :: rest, k, v =>
    if k' = k then (k', v) :: rest else (k', v') :: dictInsert rest k v

/-- Python `dict(pairs)`: fold the pairs into an insertion-ordered dictionary. -/
def dictOfPairs (ps : List (Str × Str)) : List (Str × Str) :=
  ps.foldl (fun d p => dictInsert d p.1 p.2) []

/-- One row of `process_csv_lazily`:
`values = line.split(','); yield dict(zip(header, values))`. -/
def csvRow (header : List Str) (line : Str) : List (Str × Str) :=
  dictOfPairs (header.zip (splitComma line))

/-- The loop of `process_csv_lazily` over the remaining lines. -/
def csvRows (header : List Str) : List Str → List (List (Str × Str))
  | [] => []
  | line :: rest => csvRow header line :: csvRows header rest

/-- Drained semantics of `process_csv_lazily(lines)`: take the first line
as the comma-split header (an empty iterator yields nothing, via the
`try/except StopIteration: return`), then emit one dictionary per
remaining line. -/
def process_csv_lazily : List Str → List (List (Str × Str))
  | [] => []
  | headerLine :: rest => csvRows (splitComma headerLine) rest

/-- Each successful pull of a composed pipeline consumes at least one
source element, produces the head of the eager result, and leaves a state
whose eager result is the tail; an unsuccessful pull means the eager
result is empty.  Requires fuel exceeding the remaining source length. -/
theorem pullStages_spec : ∀ fuel stages src, src.length < fuel →
    (pullStages fuel stages src = none ∧ eager stages src = []) ∨
    (∃ v s', pullStages fuel stages src = some (v, s') ∧
      eager stages src = v :: eager stages s' ∧ s'.length < src.length) := by
  intro fuel
  induction fuel using Nat.strong_induction_on with
  | _ fuel ih =>
  cases fuel with
  | zero => exact fun stages src h => absurd h (by omega)
  | succ F =>
    intro stages src
    induction stages generalizing src with
    | nil =>
      intro h
      cases src with
      | nil => exact Or.inl ⟨by rw [pullStages], rfl⟩
      | cons x xs =>
        exact Or.inr ⟨x, xs, by rw [pullStages], rfl, by simp⟩
    | cons st rest ihr =>
      intro h
      cases st with
      | map f =>
        rcases ihr src h with ⟨hn, he⟩ | ⟨v, s', hp, he, hl⟩
        · refine Or.inl ⟨?_, ?_⟩
          · rw [pullStages, hn]
          · simp [eager, he]
        · refine Or.inr ⟨f v, s', ?_, ?_, hl⟩
          · rw [pullStages, hp]
          · simp [eager, he]
      | filter p =>
        rcases ihr src h with ⟨hn, he⟩ | ⟨v, s', hp, he, hl⟩
        · refine Or.inl ⟨?_, ?_⟩
          · rw [pullStages, hn]
          · simp [eager, he]
        · by_cases hv : p v
          · refine Or.inr ⟨v, s', ?_, ?_, hl⟩
            · rw [pullStages, hp]; simp [hv]
            · simp [eager, he, List.filter_cons, hv]
          · have hs' : s'.length < F := by omega
            rcases ih F (by omega) (.filter p :: rest) s' hs' with
              ⟨hn2, he2⟩ | ⟨w, s'', hp2, he2, hl2⟩
            · refine Or.inl ⟨?_, ?_⟩
              · rw [pullStages, hp]; simp [hv, hn2]
              · simp only [eager] at he2 ⊢
                rw [he, List.filter_cons]
                simp [hv, he2]
            · refine Or.inr ⟨w, s'', ?_, ?_, by omega⟩
              · rw [pullStages, hp]; simp [hv, hp2]
              · simp only [eager] at he2 ⊢
                rw [he, List.filter_cons]
                simp [hv, he2]

/-- With fuel exceeding the source length, draining the lazy pipeline
gives the eager result. -/
theorem drainStages_eq_eager : ∀ fuel stages src, src.length < fuel →
    drainStages stages fuel src = eager stages src := by
  intro fuel
  induction fuel with
  | zero => exact fun stages src h => absurd h (by omega)
  | succ F ihf =>
    intro stages src h
    rcases pullStages_spec (src.length + 1) stages src (by omega) with
      ⟨hn, he⟩ | ⟨v, s', hp, he, hl⟩
    · rw [drainStages, hn, he]
    · rw [drainStages, hp, he]
      show v :: drainStages stages F s' = v :: eager stages s'
      rw [ihf stages s' (by omega)]

/-- Stage `read_numbers` re-emits its input list unchanged. -/
theorem read_numbers_eq_id : ∀ l : List Int, read_numbers l = l := by
  intro l
  induction l with
  | nil => rfl
  | cons x xs ihx => rw [read_numbers, ihx]

/-- The drained `filter_even` stage is the eager `List.filter isEven`. -/
theorem filter_even_eq_filter : ∀ l : List Int, filter_even l = l.filter isEven := by
  intro l
  induction l with
  | nil => rfl
  | cons x xs ihx => rw [filter_even, List.filter_cons]; by_cases hx : isEven x <;> simp [hx, ihx]

/-- The drained `square` stage is the eager `List.map (fun n => n ^ 2)`. -/
theorem square_eq_map : ∀ l : List Int, square l = l.map fun n => n ^ 2 := by
  intro l
  induction l with
  | nil => rfl
  | cons x xs ihx => rw [square, List.map_cons, ihx]

/-- Claim C1: draining a lazily composed pipeline of pure map/filter
stages over a finite source yields exactly the eager transform of a
concrete copy of the source, in the same order; the concrete stages
`read_numbers`, `filter_even` and `square` are instances of such stages,
and a filter stage's output is a sublist (subsequence, order preserved)
of its input. -/
theorem pipeline_lazy_eq_eager (stages : List Stage) (src : List Int) :
    drainStages stages (src.length + 1) src = eager stages src ∧
    (∀ (p : Int → Bool) (l : List Int), List.Sublist (eager [Stage.filter p] l) l) ∧
    (∀ l : List Int, read_numbers l = l ∧
      filter_even l = eager [Stage.filter isEven] l ∧
      square l = eager [Stage.map fun n => n ^ 2] l ∧
      List.Sublist (filter_even l) l) := by
  refine ⟨drainStages_eq_eager _ _ _ (by omega), ?_, ?_⟩
  · intro p l
    simp only [eager]
    exact List.filter_sublist l
  · intro l
    refine ⟨read_numbers_eq_id l, ?_, ?_, ?_⟩
    · simp only [eager]
      exact filter_even_eq_filter l
    · simp only [eager]
      exact square_eq_map l
    · rw [filter_even_eq_filter]
      exact List.filter_sublist l

/-- Claim C2: the demonstration pipeline
`square(filter_even(read_numbers([1..10])))` drains to `[4,16,36,64,100]`,
both through the direct stage composition and through the generic lazy
pull machinery with outermost stage `square` and then `filter_even`. -/
theorem pipeline_demo_even_squares :
    square (filter_even (read_numbers [1, 2, 3, 4, 5, 6, 7, 8, 9, 10])) =
      [4, 16, 36, 64, 100] ∧
    drainStages [Stage.map fun n => n ^ 2, Stage.filter isEven] 11
      [1, 2, 3, 4, 5, 6, 7, 8, 9, 10] = [4, 16, 36, 64, 100] := by
  constructor
  · decide
  · simp [drainStages, pullStages, isEven]

/-- Claim C5: flattening `[1,[2,3,[4,5]],6,[7,[8,9]]]` yields the atoms in
depth-first left-to-right order `[1,2,3,4,5,6,7,8,9]`. -/
theorem flatten_demo_depth_first :
    flatten [.atom 1, .list [.atom 2, .atom 3, .list [.atom 4, .atom 5]],
      .atom 6, .list [.atom 7, .list [.atom 8, .atom 9]]] =
      [1, 2, 3, 4, 5, 6, 7, 8, 9] := by
  simp [flatten]

/-- Accepting a list of values into a started accumulator adds their sum
to the running total. -/
theorem accAcceptAll_sum : ∀ (vs : List ℚ) (t : ℚ),
    accAcceptAll { started := true, total := t } vs =
      some { started := true, total := t + vs.sum } := by
  intro vs
  induction vs with
  | nil => intro t; simp [accAcceptAll]
  | cons v rest ihv =>
    intro t
    rw [accAcceptAll]
    show accAcceptAll { started := true, total := t + v } rest = _
    rw [ihv (t + v), List.sum_cons]
    ring_nf

/-- Claim C3: starting the accumulator yields 0; after `accept(v1) …
accept(vn)` the next `produce` (a `send(None)`, i.e. `next`) yields
`v1 + … + vn`, the total having started from zero. -/
theorem accumulator_sum_spec (vs : List ℚ) :
    accSend accumulator_start none = .ok 0 { started := true, total := 0 } ∧
    accAcceptAll { started := true, total := 0 } vs =
      some { started := true, total := vs.sum } ∧
    accSend { started := true, total := vs.sum } none =
      .ok vs.sum { started := true, total := vs.sum } := by
  refine ⟨rfl, ?_, rfl⟩
  simpa using accAcceptAll_sum vs 0

/-- Claim C4: `send` of a value into the accumulator before the first
`produce` is rejected with an error (the CPython `TypeError`), not folded
into any state. -/
theorem accumulator_send_before_start_rejected (v : ℚ) :
    accSend accumulator_start (some v) = .error := rfl

/-- A pipeline over an exhausted source reports exhaustion for any fuel
and any stage composition. -/
theorem pullStages_exhausted_source : ∀ (stages : List Stage) (fuel : Nat),
    pullStages fuel stages [] = none := by
  intro stages
  induction stages with
  | nil => intro fuel; rw [pullStages]
  | cons st rest ihr =>
    intro fuel
    cases st with
    | map f => rw [pullStages, ihr fuel]
    | filter p =>
      cases fuel with
      | zero => rw [pullStages]
      | succ F => rw [pullStages, ihr (F + 1)]

/-- Claim C6: pulling a finite lazy sequence past its last element yields
the distinct exhaustion signal (`none` / `.exhausted`, modelling
`StopIteration`) rather than a normal value — for `count_up_to` once
`count` exceeds `max_value`, and for `Range.__next__` once `current`
passes `stop` in the direction of `step` — and composed map/filter stages
and whole pipelines propagate upstream exhaustion to their consumer
without swallowing it. -/
theorem exhaustion_signal_spec :
    (∀ max_value count : Int, max_value < count →
      count_up_to_next max_value count = none) ∧
    (∀ r : RangeIter, 0 < r.step → r.stop ≤ r.current → rangeNext r = none) ∧
    (∀ r : RangeIter, r.step < 0 → r.current ≤ r.stop → rangeNext r = none) ∧
    (∀ (σ : Type) (f : Int → Int) (next : σ → Option (Int × σ)) (s : σ),
      next s = none → mapNext f next s = none) ∧
    (∀ (σ : Type) (p : Int → Bool) (next : σ → Option (Int × σ)) (s : σ) (fuel : Nat),
      next s = none → filterPull p next (fuel + 1) s = .exhausted) ∧
    (∀ (stages : List Stage) (fuel : Nat), pullStages fuel stages [] = none) := by
  refine ⟨?_, ?_, ?_, ?_, ?_, pullStages_exhausted_source⟩
  · intro max_value count h
    simp [count_up_to_next]
    omega
  · intro r hstep hcur
    have hc : r.step > 0 ∧ r.current ≥ r.stop ∨ r.step < 0 ∧ r.current ≤ r.stop :=
      Or.inl ⟨hstep, hcur⟩
    rw [rangeNext, if_pos hc]
  · intro r hstep hcur
    have hc : r.step > 0 ∧ r.current ≥ r.stop ∨ r.step < 0 ∧ r.current ≤ r.stop :=
      Or.inr ⟨hstep, hcur⟩
    rw [rangeNext, if_pos hc]
  · intro σ f next s h
    rw [mapNext, h]
  · intro σ p next s fuel h
    rw [filterPull, h]

/-- Claim C6 witness: the exhaustion facts at concrete inputs —
`count_up_to(5)` with `count = 6`, `Range(2, 8)` at `current = 8`,
`Range(10, 0, -2)` at `current = 0`, and stage/pipeline propagation over
an already-exhausted upstream. -/
theorem exhaustion_signal_spec_witness :
    ((5 : Int) < 6 ∧ count_up_to_next 5 6 = none) ∧
    (0 < (1 : Int) ∧ (8 : Int) ≤ 8 ∧
      rangeNext { start := 2, stop := 8, step := 1, current := 8 } = none) ∧
    ((-2 : Int) < 0 ∧ (0 : Int) ≤ 0 ∧
      rangeNext { start := 10, stop := 0, step := -2, current := 0 } = none) ∧
    ((fun _ : Unit => (none : Option (Int × Unit))) () = none ∧
      mapNext (fun n => n ^ 2) (fun _ : Unit => none) () = none) ∧
    (filterPull isEven (fun _ : Unit => none) 1 () = .exhausted) ∧
    (pullStages 3 [Stage.map fun n => n ^ 2] [] = none) := by
  refine ⟨⟨by decide, exhaustion_signal_spec.1 5 6 (by decide)⟩,
    ⟨by decide, by decide, exhaustion_signal_spec.2.1 _ (by decide) (by decide)⟩,
    ⟨by decide, by decide, exhaustion_signal_spec.2.2.1 _ (by decide) (by decide)⟩,
    ⟨rfl, exhaustion_signal_spec.2.2.2.1 Unit _ _ () rfl⟩,
    exhaustion_signal_spec.2.2.2.2.1 Unit isEven _ () 0 rfl,
    exhaustion_signal_spec.2.2.2.2.2 [Stage.map fun n => n ^ 2] 3⟩

/-- From a Fibonacci state with both components odd, `filter_even` finds
the next even value within three pulls, landing again on a both-odd
state. -/
theorem filterPull_fib_step (a b : Int) (ha : a % 2 = 1) (hb : b % 2 = 1) :
    filterPull isEven fibNext 3 (a, b) =
      .value (a + b) (a + 2 * b, 2 * a + 3 * b) ∧
    (a + 2 * b) % 2 = 1 ∧ (2 * a + 3 * b) % 2 = 1 := by
  refine ⟨?_, by omega, by omega⟩
  have hae : isEven a = false := by simp [isEven]; omega
  have hbe : isEven b = false := by simp [isEven]; omega
  have habe : isEven (a + b) = true := by simp [isEven]; omega
  rw [filterPull]
  show (if isEven a then _ else filterPull isEven fibNext 2 (b, a + b)) = _
  rw [if_neg (by simp [hae]), filterPull]
  show (if isEven b then _ else filterPull isEven fibNext 1 (a + b, b + (a + b))) = _
  rw [if_neg (by simp [hbe]), filterPull]
  show (if isEven (a + b) then FilterPull.value (a + b) (b + (a + b), a + b + (b + (a + b)))
    else _) = _
  rw [if_pos habe]
  simp only [FilterPull.value.injEq, Prod.mk.injEq]
  exact ⟨trivial, by ring, by ring⟩

/-- From a both-odd Fibonacci state, draining `n` elements through the
`filter_even` stage always succeeds. -/
theorem drainFilteredFib_length : ∀ (n : Nat) (a b : Int),
    a % 2 = 1 → b % 2 = 1 →
    (drainFilteredFib n (a, b)).length = n := by
  intro n
  induction n with
  | zero => intro a b _ _; rfl
  | succ m ihm =>
    intro a b ha hb
    obtain ⟨hstep, ho1, ho2⟩ := filterPull_fib_step a b ha hb
    rw [drainFilteredFib, hstep]
    show ((a + b) :: drainFilteredFib m (a + 2 * b, 2 * a + 3 * b)).length = m + 1
    rw [List.length_cons, ihm _ _ ho1 ho2]

/-- Claim C7: the Fibonacci source never signals exhaustion; composing it
with any map stage still never signals exhaustion, composing it with any
filter stage never signals exhaustion for any retry budget, and the
concrete pipeline `filter_even(fibonacci_generator())` produces `n`
elements for every `n` — it is unbounded. -/
theorem fib_pipeline_unbounded :
    (∀ s : Int × Int, ∃ v s', fibNext s = some (v, s')) ∧
    (∀ (f : Int → Int) (s : Int × Int), ∃ v s', mapNext f fibNext s = some (v, s')) ∧
    (∀ (p : Int → Bool) (fuel : Nat) (s : Int × Int),
      filterPull p fibNext fuel s ≠ .exhausted) ∧
    (∀ n : Nat, (drainFilteredFib n fibInit).length = n) := by
  refine ⟨fun s => ⟨s.1, (s.2, s.1 + s.2), rfl⟩,
    fun f s => ⟨f s.1, (s.2, s.1 + s.2), rfl⟩, ?_, ?_⟩
  · intro p fuel
    induction fuel with
    | zero => intro s h; exact FilterPull.noConfusion h
    | succ m ihm =>
      intro s
      rw [filterPull]
      show (if p s.1 then FilterPull.value s.1 (s.2, s.1 + s.2) else _) ≠ _
      by_cases hp : p s.1
      · rw [if_pos hp]; exact fun h => FilterPull.noConfusion h
      · rw [if_neg hp]; exact ihm (s.2, s.1 + s.2)
  · intro n
    cases n with
    | zero => rfl
    | succ m =>
      have h0 : filterPull isEven fibNext 3 fibInit = .value 0 (1, 1) := by decide
      rw [drainFilteredFib]
      show (match filterPull isEven fibNext 3 fibInit with
        | FilterPull.value v s' => v :: drainFilteredFib m s'
        | _ => []).length = m + 1
      rw [h0]
      show (0 :: drainFilteredFib m (1, 1)).length = m + 1
      rw [List.length_cons, drainFilteredFib_length m 1 1 (by decide) (by decide)]

/-- Claim C7 witness: the never-exhausted facts applied at concrete
inputs, and ten elements drained from the filtered Fibonacci pipeline. -/
theorem fib_pipeline_unbounded_witness :
    (∃ v s', fibNext fibInit = some (v, s')) ∧
    (∃ v s', mapNext (fun n => n ^ 2) fibNext fibInit = some (v, s')) ∧
    filterPull (fun n => n % 3 == 0) fibNext 5 fibInit ≠ .exhausted ∧
    (drainFilteredFib 10 fibInit).length = 10 :=
  ⟨fib_pipeline_unbounded.1 fibInit,
    fib_pipeline_unbounded.2.1 (fun n => n ^ 2) fibInit,
    fib_pipeline_unbounded.2.2.1 (fun n => n % 3 == 0) 5 fibInit,
    fib_pipeline_unbounded.2.2.2 10⟩

/-- The values recorded from instance B depend only on the number of pulls
directed at B, never on pulls sent to the separate instance A. -/
theorem twoInstanceRun_eq_fibTake : ∀ (sched : List Bool) (sa sb : Int × Int),
    twoInstanceRun sched sa sb = fibTake (sched.count false) sb := by
  intro sched
  induction sched with
  | nil => intro sa sb; rfl
  | cons c rest ihc =>
    intro sa sb
    cases c with
    | true =>
      show twoInstanceRun rest (sa.2, sa.1 + sa.2) sb =
        fibTake ((true :: rest).count false) sb
      have hc : (true :: rest).count false = rest.count false := by
        simp [List.count_cons]
      rw [hc, ihc]
    | false =>
      show sb.1 :: twoInstanceRun rest sa (sb.2, sb.1 + sb.2) =
        fibTake ((false :: rest).count false) sb
      have hc : (false :: rest).count false = rest.count false + 1 := by
        simp [List.count_cons]
      rw [hc, ihc, fibTake]
      rfl

/-- The generator's first `n` values from state `(fib k, fib (k+1))` are
the closed-form Fibonacci numbers `fib k, …, fib (k+n-1)`. -/
theorem fibTake_eq_fib : ∀ n k : Nat,
    fibTake n ((Nat.fib k : Int), (Nat.fib (k + 1) : Int)) =
      (List.range n).map fun i => (Nat.fib (k + i) : Int) := by
  intro n
  induction n with
  | zero => intro k; rfl
  | succ m ihm =>
    intro k
    have hf : (Nat.fib k : Int) + (Nat.fib (k + 1) : Int) =
        (Nat.fib (k + 1 + 1) : Int) := by
      rw [Nat.fib_add_two]
      push_cast
      ring
    have hr : ∀ (f : Nat → Int) (j : Nat),
        (List.range (j + 1)).map f = f 0 :: (List.range j).map fun i => f (i + 1) := by
      intro f j
      rw [List.range_succ_eq_map, List.map_cons, List.map_map]
      rfl
    rw [fibTake]
    show (Nat.fib k : Int) ::
      fibTake m ((Nat.fib (k + 1) : Int), (Nat.fib k : Int) + (Nat.fib (k + 1) : Int)) = _
    rw [hf, ihm (k + 1), hr (fun i => (Nat.fib (k + i) : Int)) m]
    have hh : (Nat.fib (k + 0) : Int) = (Nat.fib k : Int) := by norm_num
    have ht : (List.range m).map (fun i => (Nat.fib (k + (i + 1)) : Int)) =
        (List.range m).map fun i => (Nat.fib (k + 1 + i) : Int) := by
      apply List.map_congr_left
      intro i _
      have h : k + (i + 1) = k + 1 + i := by omega
      rw [h]
    rw [hh, ht]

/-- Claim C8: what a producer instance yields depends only on its own
state: over any interleaving with a separate instance, the values pulled
from a fresh Fibonacci instance are exactly the first elements of the
closed-form Fibonacci sequence, determined solely by how many pulls were
directed at that instance — so two independent runs of the same pipeline
over fresh sources give identical results. -/
theorem fresh_instances_deterministic :
    (∀ sched : List Bool,
      twoInstanceRun sched fibInit fibInit = fibTake (sched.count false) fibInit) ∧
    (∀ n : Nat, fibTake n fibInit = (List.range n).map fun i => (Nat.fib i : Int)) ∧
    (∀ data : List Int, read_numbers data = data) := by
  refine ⟨fun sched => twoInstanceRun_eq_fibTake sched fibInit fibInit, ?_, read_numbers_eq_id⟩
  intro n
  have h0 : fibInit = ((Nat.fib 0 : Int), (Nat.fib (0 + 1) : Int)) := by decide
  rw [h0, fibTake_eq_fib n 0]
  apply List.map_congr_left
  intro i _
  simp

/-- The CSV loop is a map over the remaining lines, preserving order. -/
theorem csvRows_eq_map : ∀ (header : List Str) (rest : List Str),
    csvRows header rest = rest.map (csvRow header) := by
  intro header rest
  induction rest with
  | nil => rfl
  | cons line rest ihr => rw [csvRows, ihr, List.map_cons]

/-- Claim C9: for a non-empty sequence of lines, `process_csv_lazily`
splits the first line on commas as the field names and yields, per
subsequent line in order, exactly one dictionary built by zipping that
line's comma-split values positionally against the field names. -/
theorem csv_rows_spec (headerLine : Str) (rest : List Str) :
    process_csv_lazily (headerLine :: rest) =
      rest.map (fun line =>
        dictOfPairs ((splitComma headerLine).zip (splitComma line))) ∧
    (process_csv_lazily (headerLine :: rest)).length = rest.length := by
  have h : process_csv_lazily (headerLine :: rest) =
      rest.map (csvRow (splitComma headerLine)) := by
    rw [process_csv_lazily, csvRows_eq_map]
  exact ⟨h, by rw [h, List.length_map]⟩

/-- Inserting an absent key appends the pair at the end. -/
theorem dictInsert_absent : ∀ (d : List (Str × Str)) (k v : Str),
    k ∉ d.map Prod.fst → dictInsert d k v = d ++ [(k, v)] := by
  intro d k v
  induction d with
  | nil => intro _; rfl
  | cons p rest ihp =>
    intro hk
    rw [List.map_cons, List.mem_cons] at hk
    push_neg at hk
    rw [dictInsert]
    show (if p.1 = k then (p.1, v) :: rest else (p.1, p.2) :: dictInsert rest k v) = _
    rw [if_neg (fun h => hk.1 h.symm), ihp hk.2]
    rfl

/-- With pairwise-distinct keys, building a Python dict keeps every pair
in order. -/
theorem dictOfPairs_nodup : ∀ (ps d : List (Str × Str)),
    (d.map Prod.fst ++ ps.map Prod.fst).Nodup →
    ps.foldl (fun d p => dictInsert d p.1 p.2) d = d ++ ps := by
  intro ps
  induction ps with
  | nil => intro d _; simp
  | cons p rest ihp =>
    intro d hnd
    rw [List.map_cons] at hnd
    have hk : p.1 ∉ d.map Prod.fst := by
      intro hmem
      rcases List.nodup_append.mp hnd with ⟨_, _, hdisj⟩
      exact hdisj hmem (List.mem_cons_self _ _)
    rw [List.foldl_cons, dictInsert_absent d p.1 p.2 hk]
    have hnd' : ((d ++ [(p.1, p.2)]).map Prod.fst ++ rest.map Prod.fst).Nodup := by
      rw [List.map_append]
      simpa [List.append_assoc] using hnd
    have := ihp (d ++ [(p.1, p.2)]) hnd'
    rw [show (p.1, p.2) = p from rfl] at this
    rw [this, List.append_assoc]
    rfl

/-- The keys of a positional zip are the field names that received a
value. -/
theorem zip_map_fst : ∀ (header vals : List Str),
    (header.zip vals).map Prod.fst = header.take vals.length := by
  intro header
  induction header with
  | nil => intro vals; simp
  | cons h rest ihh =>
    intro vals
    cases vals with
    | nil => simp
    | cons v vs => rw [List.zip_cons_cons, List.map_cons, ihh vs]; rfl

/-- Claim C10 counterexample: with header line `"a,a"` (a duplicated
field name) and data line `"1,2,3"` (field count differing from the
header's), the yielded dictionary has 1 entry, not
`min(header length, value count) = 2`, because `dict` collapses the
duplicate key. -/
theorem csv_min_entries_counterexample :
    process_csv_lazily [['a', ',', 'a'], ['1', ',', '2', ',', '3']] =
      [[(['a'], ['2'])]] ∧
    (csvRow (splitComma ['a', ',', 'a']) ['1', ',', '2', ',', '3']).length = 1 ∧
    min (splitComma ['a', ',', 'a']).length
      (splitComma ['1', ',', '2', ',', '3']).length = 2 := by
  refine ⟨by decide, by decide, by decide⟩

/-- Claim C10 (amended): `process_csv_lazily` never raises at its public
interface — an empty input yields the empty sequence — and for every data
line, when the header's field names are pairwise distinct the yielded
mapping has exactly `min(header length, value count)` entries, its keys
being the first field names in order: surplus values are dropped and
missing trailing fields are simply absent. -/
theorem csv_no_raise_min_entries :
    process_csv_lazily [] = [] ∧
    ∀ (header : List Str) (line : Str), header.Nodup →
      (csvRow header line).length = min header.length (splitComma line).length ∧
      (csvRow header line).map Prod.fst = header.take (splitComma line).length := by
  refine ⟨rfl, ?_⟩
  intro header line hnd
  have hkeys : ((header.zip (splitComma line)).map Prod.fst).Nodup := by
    rw [zip_map_fst]
    exact (List.take_sublist _ _).nodup hnd
  have hdict : csvRow header line = header.zip (splitComma line) := by
    rw [csvRow, dictOfPairs]
    have := dictOfPairs_nodup (header.zip (splitComma line)) [] (by simpa using hkeys)
    simpa using this
  rw [hdict]
  exact ⟨List.length_zip _ _, zip_map_fst header (splitComma line)⟩

/-- Claim C10 witness: the amended property at the concrete header
`["a", "b"]` and data line `"1"` (shorter than the header). -/
theorem csv_no_raise_min_entries_witness :
    ([['a'], ['b']] : List Str).Nodup ∧
    ((csvRow [['a'], ['b']] ['1']).length =
        min ([['a'], ['b']] : List Str).length (splitComma ['1']).length ∧
      (csvRow [['a'], ['b']] ['1']).map Prod.fst =
        ([['a'], ['b']] : List Str).take (splitComma ['1']).length) :=
  ⟨by decide, csv_no_raise_min_entries.2 [['a'], ['b']] ['1'] (by decide)⟩
